import Mathlib

/-!
Verification of the slidesplit core segmentation algorithm.

The development shallowly embeds the Rust functions `cluster_frames` and
`merge_short_clusters` from `src/lib.rs`, and the representative-frame
selection of `write_output_slides` from `src/main.rs`.  Frames are modelled
by their fingerprints (an opaque type `α`) together with a distance function
`dist : α → α → Nat`; in the program `α` is a 64-bit perceptual hash and
`dist` its Hamming distance.  Positions are array indices `0, …, n-1` into
the frame sequence, exactly as in the source.

Partial operations of the source (slice indexing, `Vec` indexing,
`Option::unwrap`) are embedded in the `Option` monad: a `none` result marks
a panic of the original code.  The fixed-point loop of the short-cluster
pass is embedded by well-founded recursion; its termination argument is the
one of the specification (each merge strictly shrinks the partition).
-/

namespace Slidesplit

variable {α : Type*}

/-- Hamming weight of the low `fuel` binary digits of a natural number.
With `fuel = 64` this is the population count of a 64-bit value. -/
def popCount64 : Nat → Nat → Nat
  | _, 0 => 0
  | 0, _ => 0
  | fuel + 1, n + 1 => (n + 1) % 2 + popCount64 fuel ((n + 1) / 2)

/-- Hamming distance between two 64-bit hash values, the concrete instance of
the fingerprint distance used by the program (`ImageHash::dist`). -/
def hashDist (a b : Nat) : Nat := popCount64 64 (Nat.xor a b)

/-- Loop of `cluster_frames` (src/lib.rs lines 25-34): `anchor` is the
fingerprint of the current cluster's first member, `cur` the current cluster,
and the remaining frames are given with their indices. -/
def clusterGo (dist : α → α → Nat) (threshold : Nat) :
    α → List Nat → List (Nat × α) → List (List Nat)
  | _, cur, [] => [cur]
  | anchor, cur, (i, h) :: rest =>
    if dist h anchor ≤ threshold then clusterGo dist threshold anchor (cur ++ [i]) rest
    else cur :: clusterGo dist threshold h [i] rest

/-- Embedding of `cluster_frames` (src/lib.rs lines 17-37): anchor-based
single-pass clustering of the frame sequence. -/
def cluster_frames (dist : α → α → Nat) (frames : List α) (threshold : Nat) :
    List (List Nat) :=
  match frames with
  | [] => []
  | f :: fs => clusterGo dist threshold f [0] (List.enumFrom 1 fs)

/-- Embedding of the `merge_target` computation of `merge_short_clusters`
(src/lib.rs lines 59-80).  The outer `Option` is `none` when the original
code would panic (indexing an empty cluster or an out-of-range frame); the
inner `Option` is the Rust `Option<usize>` target. -/
def mergeTarget (dist : α → α → Nat) (frames : List α)
    (cs : List (List Nat)) (i : Nat) : Option (Option Nat) :=
  if cs.length = 1 then some none
  else if i = 0 then some (some 1)
  else if i = cs.length - 1 then some (some (i - 1))
  else
    ((cs.getD i []).head?).bind fun cfp =>
    (frames.get? cfp).bind fun cur_first =>
    ((cs.getD i []).getLast?).bind fun clp =>
    (frames.get? clp).bind fun cur_last =>
    ((cs.getD (i - 1) []).getLast?).bind fun plp =>
    (frames.get? plp).bind fun prev_last =>
    ((cs.getD (i + 1) []).head?).bind fun nfp =>
    (frames.get? nfp).bind fun next_first =>
    some (some (if dist cur_first prev_last ≤ dist cur_last next_first
                then i - 1 else i + 1))

/-- Embedding of one full left-to-right scan of the short-cluster
elimination loop (src/lib.rs lines 55-96): the inner `while i < clusters.len()`
loop, carrying the scan position `i` and the `changed` flag. -/
def mergeScan (dist : α → α → Nat) (frames : List α) (min_len : Nat)
    (cs : List (List Nat)) (i : Nat) (changed : Bool) :
    Option (List (List Nat) × Bool) :=
  if h : i < cs.length then
    if (cs.getD i []).length < min_len then
      match mergeTarget dist frames cs i with
      | none => none
      | some none => mergeScan dist frames min_len cs (i + 1) changed
      | some (some t) =>
        let tk := cs.getD i []
        let cs2 := cs.eraseIdx i
        if t < i then
          mergeScan dist frames min_len (cs2.set t (cs2.getD t [] ++ tk)) t true
        else
          mergeScan dist frames min_len
            (cs2.set (t - 1) (cs2.getD (t - 1) [] ++ tk)) (t - 1) true
    else mergeScan dist frames min_len cs (i + 1) changed
  else some (cs, changed)
termination_by (cs.length, cs.length - i)
decreasing_by
· apply Prod.Lex.right
  omega
· apply Prod.Lex.left
  simp [List.length_set, List.length_eraseIdx, h]
  omega
· apply Prod.Lex.left
  simp [List.length_set, List.length_eraseIdx, h]
  omega
· apply Prod.Lex.right
  omega

/-- Every scan result is no longer than its input, and a scan that newly set
the `changed` flag made at least one merge, so it strictly shrank the
partition (this is the termination measure of the outer fixed-point loop). -/
theorem mergeScan_length (dist : α → α → Nat) (frames : List α) (min_len : Nat)
    (cs : List (List Nat)) (i : Nat) (changed : Bool) :
    ∀ cs' c', mergeScan dist frames min_len cs i changed = some (cs', c') →
      cs'.length ≤ cs.length ∧ (c' = changed ∨ cs'.length < cs.length) := by
  induction cs, i, changed using mergeScan.induct dist frames min_len with
  | case1 cs i changed h hshort htgt =>
    intro cs' c' heq
    rw [mergeScan, dif_pos h, if_pos hshort, htgt] at heq
    exact absurd heq (by simp)
  | case2 cs i changed h hshort htgt ih =>
    intro cs' c' heq
    rw [mergeScan, dif_pos h, if_pos hshort, htgt] at heq
    exact ih cs' c' heq
  | case3 cs i changed h hshort t htgt tk cs2 ht ih =>
    intro cs' c' heq
    rw [mergeScan, dif_pos h, if_pos hshort, htgt] at heq
    simp only [if_pos ht] at heq
    have := ih cs' c' heq
    have hlen : (cs.eraseIdx i).length = cs.length - 1 := by
      simp [List.length_eraseIdx, h]
    simp only [List.length_set, hlen] at this
    omega
  | case4 cs i changed h hshort t htgt tk cs2 ht ih =>
    intro cs' c' heq
    rw [mergeScan, dif_pos h, if_pos hshort, htgt] at heq
    simp only [if_neg ht] at heq
    have := ih cs' c' heq
    have hlen : (cs.eraseIdx i).length = cs.length - 1 := by
      simp [List.length_eraseIdx, h]
    simp only [List.length_set, hlen] at this
    omega
  | case5 cs i changed h hshort ih =>
    intro cs' c' heq
    rw [mergeScan, dif_pos h, if_neg hshort] at heq
    exact ih cs' c' heq
  | case6 cs i changed h =>
    intro cs' c' heq
    rw [mergeScan, dif_neg h] at heq
    simp at heq
    obtain ⟨h1, h2⟩ := heq
    subst h1; subst h2
    simp

/-- Embedding of the outer fixed-point loop of the short-cluster elimination
pass (src/lib.rs lines 54-100): rescan until a full scan makes no merges. -/
def mergePass1 (dist : α → α → Nat) (frames : List α) (min_len : Nat)
    (cs : List (List Nat)) : Option (List (List Nat)) :=
  match hs : mergeScan dist frames min_len cs 0 false with
  | none => none
  | some r =>
    if hc : r.2 = true then mergePass1 dist frames min_len r.1
    else some r.1
termination_by cs.length
decreasing_by
  rcases mergeScan_length dist frames min_len cs 0 false r.1 r.2
      (by rw [hs]) with ⟨h1, h2 | h3⟩
  · rw [hc] at h2; cases h2
  · exact h3

/-- Unfolding rule of the fixed-point loop: a scan that made no merge ends the
loop, a scan that merged is followed by a rescan of its result. -/
theorem mergePass1_eq (dist : α → α → Nat) (frames : List α) (min_len : Nat)
    (cs cs' : List (List Nat)) (c : Bool)
    (h : mergeScan dist frames min_len cs 0 false = some (cs', c)) :
    mergePass1 dist frames min_len cs =
      if c then mergePass1 dist frames min_len cs' else some cs' := by
  rw [mergePass1.eq_def]
  split
  · next heq => rw [h] at heq; cases heq
  · next r heq =>
    rw [h] at heq
    cases heq
    cases c <;> simp

/-- Panic propagation of the fixed-point loop. -/
theorem mergePass1_none (dist : α → α → Nat) (frames : List α) (min_len : Nat)
    (cs : List (List Nat))
    (h : mergeScan dist frames min_len cs 0 false = none) :
    mergePass1 dist frames min_len cs = none := by
  rw [mergePass1.eq_def]
  split
  · rfl
  · next r heq => rw [h] at heq; cases heq

/-- Embedding of the micro-split coalescing pass of `merge_short_clusters`
(src/lib.rs lines 103-113): a single forward sweep that merges adjacent
clusters whose touching frames are within `threshold / 2`. -/
def microPass (dist : α → α → Nat) (frames : List α) (threshold : Nat)
    (cs : List (List Nat)) (i : Nat) : Option (List (List Nat)) :=
  if h : i + 1 < cs.length then
    match (cs.getD i []).getLast? with
    | none => none
    | some ap =>
      match frames.get? ap with
      | none => none
      | some a_last =>
        match (cs.getD (i + 1) []).head? with
        | none => none
        | some bp =>
          match frames.get? bp with
          | none => none
          | some b_first =>
            if dist a_last b_first ≤ threshold / 2 then
              microPass dist frames threshold
                ((cs.eraseIdx (i + 1)).set i
                  ((cs.eraseIdx (i + 1)).getD i [] ++ cs.getD (i + 1) [])) i
            else microPass dist frames threshold cs (i + 1)
  else some cs
termination_by (cs.length, cs.length - i)
decreasing_by
· apply Prod.Lex.left
  simp [List.length_set, List.length_eraseIdx, h]
  omega
· apply Prod.Lex.right
  omega

/-- Embedding of `merge_short_clusters` (src/lib.rs lines 44-114):
`min_len = ceil(min_stable_seconds * fps)` followed by the short-cluster
elimination loop and the micro-split pass.  The two real parameters are
modelled by rationals. -/
def merge_short_clusters (dist : α → α → Nat) (cs : List (List Nat))
    (frames : List α) (min_stable_seconds fps : ℚ) (threshold : Nat) :
    Option (List (List Nat)) :=
  let min_len := (⌈min_stable_seconds * fps⌉).toNat
  match mergePass1 dist frames min_len cs with
  | none => none
  | some cs1 => microPass dist frames threshold cs1 0

/-- Representative selection of `write_output_slides` (src/main.rs lines
248-273): for each cluster in order, skip it when empty, otherwise emit the
element at index `len / 2` as the slide's representative position. -/
def write_output_slides (cs : List (List Nat)) : List Nat :=
  cs.filterMap fun c => if c.isEmpty then none else some (c.getD (c.length / 2) 0)

/-- Modelled from the spec (section 4.1 Anchor Clusterer): one step of the
loop `for i = 1..n-1` as the specification words it.  The state is the anchor
index, the current open cluster and the closed clusters; the step compares
`fingerprint[i]` against the fingerprint of the current anchor, appends `i`
on `d ≤ threshold`, and otherwise closes the current cluster and opens a new
one anchored at `i`. -/
def specStep (dist : α → α → Nat) (frames : List α) (threshold : Nat)
    (st : Nat × List Nat × List (List Nat)) (i : Nat) :
    Nat × List Nat × List (List Nat) :=
  match frames.get? i, frames.get? st.1 with
  | some fi, some fa =>
    if dist fi fa ≤ threshold then (st.1, st.2.1 ++ [i], st.2.2)
    else (i, [i], st.2.2 ++ [st.2.1])
  | _, _ => st

/-- Modelled from the spec (section 4.1 Anchor Clusterer), for the refinement
claim: if `n = 0` return the empty partition, otherwise start with cluster
`[0]` anchored at `0`, run the loop for `i = 1..n-1`, and emit the final open
cluster unconditionally. -/
def cluster_frames_spec (dist : α → α → Nat) (frames : List α)
    (threshold : Nat) : List (List Nat) :=
  if frames.length = 0 then []
  else
    let res := (List.range' 1 (frames.length - 1)).foldl
      (specStep dist frames threshold) (0, [0], [])
    res.2.2 ++ [res.2.1]

/-- Minimum element of a cluster (0 for the empty cluster, which never occurs
in a well-formed partition). -/
def clusterMin : List Nat → Nat
  | [] => 0
  | [x] => x
  | x :: y :: r => min x (clusterMin (y :: r))

/-- Order invariant of a partition: clusters are non-empty and sorted
strictly ascending by their minimum element. -/
def OrderInv (cs : List (List Nat)) : Prop :=
  (∀ c ∈ cs, c ≠ []) ∧ List.Chain' (· < ·) (cs.map clusterMin)

/-- Full partition invariant relative to a frame count `n`: the order
invariant together with partition completeness — the concatenation of all
clusters is a permutation of `{0, …, n-1}`. -/
def Inv (n : Nat) (cs : List (List Nat)) : Prop :=
  OrderInv cs ∧ cs.flatten.Perm (List.range n)

section ListSurgery

variable {β : Type*}

/-- Dropping `i` elements of a list with `i` in range exposes the element at
index `i` at the head. -/
theorem drop_eq_getD_cons (l : List β) (d : β) (i : Nat) (h : i < l.length) :
    l.drop i = l.getD i d :: l.drop (i + 1) := by
  induction l generalizing i with
  | nil => simp at h
  | cons a l ih =>
    cases i with
    | zero => simp
    | succ j => simpa using ih j (by simpa using h)

/-- Decomposition of a list around the element at index `i`. -/
theorem eq_take_getD_drop (l : List β) (d : β) (i : Nat) (h : i < l.length) :
    l = l.take i ++ l.getD i d :: l.drop (i + 1) := by
  conv_lhs => rw [← List.take_append_drop i l]
  rw [drop_eq_getD_cons l d i h]

/-- Decomposition of a list around two adjacent elements at `i` and `i+1`. -/
theorem eq_take_getD_getD_drop (l : List β) (d : β) (i : Nat)
    (h : i + 1 < l.length) :
    l = l.take i ++ l.getD i d :: l.getD (i + 1) d :: l.drop (i + 2) := by
  conv_lhs => rw [eq_take_getD_drop l d i (by omega)]
  rw [drop_eq_getD_cons l d (i + 1) h]

/-- Shape of the partition surgery that folds the cluster at index `i+1`
into the cluster at index `i` (append to the earlier cluster): this is the
merge-into-previous step of the short-cluster pass with `tk` the removed
cluster, and also the micro-split merge step. -/
theorem merge_prev_eq (cs : List (List Nat)) (i : Nat) (tk : List Nat)
    (h : i + 1 < cs.length) :
    (cs.eraseIdx (i + 1)).set i ((cs.eraseIdx (i + 1)).getD i [] ++ tk)
      = cs.take i ++ (cs.getD i [] ++ tk) :: cs.drop (i + 2) := by
  induction cs generalizing i with
  | nil => simp at h
  | cons a cs ih =>
    cases i with
    | zero =>
      cases cs with
      | nil => simp at h
      | cons b cs' => simp [List.eraseIdx]
    | succ j =>
      have h' : j + 1 < cs.length := by simpa using h
      simpa using ih j h'

/-- Shape of the partition surgery that removes the cluster at index `i` and
appends its contents `tk` to the cluster that was at index `i+1`: the
merge-into-next step of the short-cluster pass. -/
theorem merge_next_eq (cs : List (List Nat)) (i : Nat) (tk : List Nat)
    (h : i + 1 < cs.length) :
    (cs.eraseIdx i).set i ((cs.eraseIdx i).getD i [] ++ tk)
      = cs.take i ++ (cs.getD (i + 1) [] ++ tk) :: cs.drop (i + 2) := by
  induction cs generalizing i with
  | nil => simp at h
  | cons a cs ih =>
    cases i with
    | zero =>
      cases cs with
      | nil => simp at h
      | cons b cs' => simp [List.eraseIdx]
    | succ j =>
      have h' : j + 1 < cs.length := by simpa using h
      simpa using ih j h'

end ListSurgery

/-- Minimum of a concatenation of two non-empty clusters. -/
theorem clusterMin_append (a b : List Nat) (ha : a ≠ []) (hb : b ≠ []) :
    clusterMin (a ++ b) = min (clusterMin a) (clusterMin b) := by
  induction a with
  | nil => cases ha rfl
  | cons x a ih =>
    cases a with
    | nil =>
      cases b with
      | nil => cases hb rfl
      | cons y r => simp [clusterMin]
    | cons z a' =>
      have hrec := ih (by simp)
      have e3 : clusterMin ((x :: z :: a') ++ b)
          = min x (clusterMin ((z :: a') ++ b)) := by
        rw [show (x :: z :: a') ++ b = x :: z :: (a' ++ b) by simp,
          show (z :: a') ++ b = z :: (a' ++ b) by simp]
        rfl
      have e4 : clusterMin (x :: z :: a') = min x (clusterMin (z :: a')) := rfl
      rw [e3, hrec, e4]
      omega

/-- Replacing two adjacent entries of a strictly ascending list by their
minimum keeps the list strictly ascending. -/
theorem chain_lt_surgery (MA MB : List Nat) (a b : Nat)
    (h : List.Chain' (· < ·) (MA ++ a :: b :: MB)) :
    List.Chain' (· < ·) (MA ++ min a b :: MB) := by
  rw [List.chain'_append] at h ⊢
  obtain ⟨h1, h2, h3⟩ := h
  rw [List.chain'_cons] at h2
  obtain ⟨hab, h2⟩ := h2
  have hmin : min a b = a := min_eq_left (Nat.le_of_lt hab)
  refine ⟨h1, ?_, ?_⟩
  · rw [List.chain'_cons'] at h2 ⊢
    obtain ⟨hb1, h2⟩ := h2
    refine ⟨fun y hy => ?_, h2⟩
    rw [hmin]
    exact lt_trans hab (hb1 y hy)
  · intro x hx y hy
    simp only [List.head?_cons, Option.mem_def, Option.some.injEq] at hy
    subst hy
    rw [hmin]
    exact h3 x hx a (by simp)

/-- Folding two adjacent clusters into one whose contents are a permutation
of their concatenation permutes the flattened partition. -/
theorem flatten_surgery_perm (A B : List (List Nat)) (c d e : List Nat)
    (he : e = c ++ d ∨ e = d ++ c) :
    (A ++ e :: B).flatten.Perm (A ++ c :: d :: B).flatten := by
  simp only [List.flatten_append, List.flatten_cons]
  apply List.Perm.append_left
  rcases he with rfl | rfl
  · simp [List.append_assoc]
  · refine (List.Perm.append_right _ List.perm_append_comm).trans ?_
    rw [List.append_assoc]

/-- The order invariant survives folding two adjacent clusters into their
concatenation (in either order). -/
theorem OrderInv_surgery (A B : List (List Nat)) (c d e : List Nat)
    (he : e = c ++ d ∨ e = d ++ c) (hc : c ≠ []) (hd : d ≠ [])
    (h : OrderInv (A ++ c :: d :: B)) : OrderInv (A ++ e :: B) := by
  obtain ⟨hne, hchain⟩ := h
  have hemin : clusterMin e = min (clusterMin c) (clusterMin d) := by
    rcases he with rfl | rfl
    · exact clusterMin_append c d hc hd
    · rw [clusterMin_append d c hd hc]
      omega
  constructor
  · intro x hx
    rcases List.mem_append.1 hx with hA | hx
    · exact hne x (by simp [hA])
    · rcases List.mem_cons.1 hx with rfl | hB
      · rcases he with rfl | rfl
        · simp [hc]
        · simp [hd]
      · exact hne x (by simp [hB])
  · have hmap : (A ++ e :: B).map clusterMin
        = A.map clusterMin ++ min (clusterMin c) (clusterMin d)
            :: B.map clusterMin := by
      simp [hemin]
    have hmap2 : (A ++ c :: d :: B).map clusterMin
        = A.map clusterMin ++ clusterMin c :: clusterMin d
            :: B.map clusterMin := by simp
    rw [hmap]
    rw [hmap2] at hchain
    exact chain_lt_surgery _ _ _ _ hchain

/-- Case analysis of the merge-target computation: a target of `none` happens
exactly on a single-cluster partition, and any produced index is the previous
neighbour (with `i ≥ 1`) or the next neighbour (with `i + 1` in range). -/
theorem mergeTarget_spec (dist : α → α → Nat) (frames : List α)
    (cs : List (List Nat)) (i : Nat) (o : Option Nat)
    (hi : i < cs.length) (h : mergeTarget dist frames cs i = some o) :
    (o = none ∧ cs.length = 1) ∨
    (o = some (i - 1) ∧ 1 ≤ i) ∨
    (o = some (i + 1) ∧ i + 1 < cs.length) := by
  unfold mergeTarget at h
  by_cases h1 : cs.length = 1
  · rw [if_pos h1] at h
    left
    cases h
    exact ⟨rfl, h1⟩
  rw [if_neg h1] at h
  by_cases h2 : i = 0
  · rw [if_pos h2] at h
    right; right
    cases h
    subst h2
    exact ⟨rfl, by omega⟩
  rw [if_neg h2] at h
  by_cases h3 : i = cs.length - 1
  · rw [if_pos h3] at h
    right; left
    cases h
    exact ⟨rfl, by omega⟩
  rw [if_neg h3] at h
  simp only [Option.bind_eq_some] at h
  obtain ⟨cfp, _, cf, _, clp, _, cl, _, plp, _, pl, _, nfp, _, nf, _, hfin⟩ := h
  cases hfin
  by_cases hd : dist cf pl ≤ dist cl nf
  · rw [if_pos hd]
    right; left
    exact ⟨rfl, by omega⟩
  · rw [if_neg hd]
    right; right
    exact ⟨rfl, by omega⟩

/-- The element read by `getD` at an index in range is a member of the list. -/
theorem getD_mem {β : Type*} (l : List β) (d : β) (i : Nat) (h : i < l.length) :
    l.getD i d ∈ l := by
  induction l generalizing i with
  | nil => simp at h
  | cons a l ih =>
    cases i with
    | zero => simp
    | succ j => exact List.mem_cons_of_mem a (ih j (by simpa using h))

/-- A successful scan of the short-cluster pass permutes the flattened
partition, preserves the order invariant, and keeps the partition non-empty. -/
theorem mergeScan_preserves (dist : α → α → Nat) (frames : List α)
    (min_len : Nat) (cs : List (List Nat)) (i : Nat) (changed : Bool) :
    ∀ cs' c', mergeScan dist frames min_len cs i changed = some (cs', c') →
      cs'.flatten.Perm cs.flatten ∧ (OrderInv cs → OrderInv cs') ∧
      (cs ≠ [] → cs' ≠ []) := by
  induction cs, i, changed using mergeScan.induct dist frames min_len with
  | case1 cs i changed h hshort htgt =>
    intro cs' c' heq
    rw [mergeScan, dif_pos h, if_pos hshort, htgt] at heq
    exact absurd heq (by simp)
  | case2 cs i changed h hshort htgt ih =>
    intro cs' c' heq
    rw [mergeScan, dif_pos h, if_pos hshort, htgt] at heq
    exact ih cs' c' heq
  | case3 cs i changed h hshort t htgt tk cs2 ht ih =>
    intro cs' c' heq
    rw [mergeScan, dif_pos h, if_pos hshort, htgt] at heq
    simp only [if_pos ht] at heq
    have htv : t = i - 1 ∧ 1 ≤ i := by
      rcases mergeTarget_spec dist frames cs i (some t) h htgt with
        ⟨hn, _⟩ | ⟨hs, hge⟩ | ⟨hs, _⟩
      · exact absurd hn (by simp)
      · exact ⟨by injection hs, hge⟩
      · injection hs with hs
        omega
    obtain ⟨rfl, hge⟩ := htv
    have heq2 : i - 1 + 1 = i := by omega
    have hprev := merge_prev_eq cs (i - 1) (cs.getD i []) (by omega)
    rw [heq2] at hprev
    have hdecomp := eq_take_getD_getD_drop cs [] (i - 1) (by omega)
    rw [heq2] at hdecomp
    obtain ⟨hp, ho, hne⟩ := ih cs' c' heq
    rw [hprev] at hp ho hne
    refine ⟨hp.trans ?_, fun hOrd => ho ?_, fun _ => hne (by simp)⟩
    · conv_rhs => rw [hdecomp]
      exact flatten_surgery_perm _ _ _ _ _ (Or.inl rfl)
    · rw [hdecomp] at hOrd
      refine OrderInv_surgery _ _ _ _ _ (Or.inl rfl) ?_ ?_ hOrd
      · exact hOrd.1 _ (by rw [← hdecomp]; exact getD_mem cs [] (i - 1) (by omega))
      · exact hOrd.1 _ (by rw [← hdecomp]; exact getD_mem cs [] i (by omega))
  | case4 cs i changed h hshort t htgt tk cs2 ht ih =>
    intro cs' c' heq
    rw [mergeScan, dif_pos h, if_pos hshort, htgt] at heq
    simp only [if_neg ht] at heq
    have htv : t = i + 1 ∧ i + 1 < cs.length := by
      rcases mergeTarget_spec dist frames cs i (some t) h htgt with
        ⟨hn, _⟩ | ⟨hs, hge⟩ | ⟨hs, hlt⟩
      · exact absurd hn (by simp)
      · injection hs with hs
        omega
      · exact ⟨by injection hs, hlt⟩
    obtain ⟨rfl, hlt⟩ := htv
    have hnext := merge_next_eq cs i (cs.getD i []) hlt
    have hdecomp := eq_take_getD_getD_drop cs [] i hlt
    have hform : cs2.set (i + 1 - 1) (cs2.getD (i + 1 - 1) [] ++ tk)
        = cs.take i ++ (cs.getD (i + 1) [] ++ cs.getD i []) :: cs.drop (i + 2) := hnext
    obtain ⟨hp, ho, hne⟩ := ih cs' c' heq
    rw [hform] at hp ho hne
    refine ⟨hp.trans ?_, fun hOrd => ho ?_, fun _ => hne (by simp)⟩
    · conv_rhs => rw [hdecomp]
      exact flatten_surgery_perm _ _ _ _ _ (Or.inr rfl)
    · rw [hdecomp] at hOrd
      refine OrderInv_surgery _ _ _ _ _ (Or.inr rfl) ?_ ?_ hOrd
      · exact hOrd.1 _ (by rw [← hdecomp]; exact getD_mem cs [] i (by omega))
      · exact hOrd.1 _ (by rw [← hdecomp]; exact getD_mem cs [] (i + 1) hlt)
  | case5 cs i changed h hshort ih =>
    intro cs' c' heq
    rw [mergeScan, dif_pos h, if_neg hshort] at heq
    exact ih cs' c' heq
  | case6 cs i changed h =>
    intro cs' c' heq
    rw [mergeScan, dif_neg h] at heq
    simp at heq
    obtain ⟨h1, h2⟩ := heq
    subst h1
    exact ⟨List.Perm.refl _, fun hOrd => hOrd, fun hne => hne⟩

/-- A non-empty list has a head, and the head is a member. -/
theorem exists_head_of_ne_nil {β : Type*} (l : List β) (h : l ≠ []) :
    ∃ a, l.head? = some a ∧ a ∈ l := by
  cases l with
  | nil => cases h rfl
  | cons x r => exact ⟨x, rfl, by simp⟩

/-- A non-empty list has a last element, and it is a member. -/
theorem exists_getLast_of_ne_nil {β : Type*} (l : List β) (h : l ≠ []) :
    ∃ a, l.getLast? = some a ∧ a ∈ l := by
  induction l with
  | nil => cases h rfl
  | cons x l ih =>
    cases l with
    | nil => exact ⟨x, rfl, by simp⟩
    | cons y r =>
      obtain ⟨a, ha, hm⟩ := ih (by simp)
      exact ⟨a, by rw [List.getLast?_cons_cons, ha], by simp [hm]⟩

/-- All positions of a partition satisfying the full invariant are below the
frame count. -/
theorem pos_lt_of_Inv (n : Nat) (cs : List (List Nat)) (h : Inv n cs) :
    ∀ c ∈ cs, ∀ p ∈ c, p < n := by
  intro c hc p hp
  have hfl : p ∈ cs.flatten := List.mem_flatten.2 ⟨c, hc, hp⟩
  exact List.mem_range.1 (h.2.mem_iff.1 hfl)

/-- Under the partition invariant every slice access of the merge-target
computation is in bounds, so it never panics. -/
theorem mergeTarget_isSome (dist : α → α → Nat) (frames : List α)
    (cs : List (List Nat)) (i n : Nat) (hfr : frames.length = n)
    (hInv : Inv n cs) (hi : i < cs.length) :
    mergeTarget dist frames cs i ≠ none := by
  unfold mergeTarget
  by_cases h1 : cs.length = 1
  · simp [h1]
  rw [if_neg h1]
  by_cases h2 : i = 0
  · simp [h2]
  rw [if_neg h2]
  by_cases h3 : i = cs.length - 1
  · simp [h3]
  rw [if_neg h3]
  have hbound := pos_lt_of_Inv n cs hInv
  have hne := hInv.1.1
  have hget : ∀ p : Nat, p < n → ∃ f, frames.get? p = some f := by
    intro p hp
    rw [← hfr] at hp
    exact ⟨frames.get ⟨p, hp⟩, List.get?_eq_get hp⟩
  have hci : cs.getD i [] ∈ cs := getD_mem cs [] i hi
  have hcim : cs.getD (i - 1) [] ∈ cs := getD_mem cs [] (i - 1) (by omega)
  have hcip : cs.getD (i + 1) [] ∈ cs := getD_mem cs [] (i + 1) (by omega)
  obtain ⟨cfp, hcfp, hcfpm⟩ := exists_head_of_ne_nil _ (hne _ hci)
  obtain ⟨clp, hclp, hclpm⟩ := exists_getLast_of_ne_nil _ (hne _ hci)
  obtain ⟨plp, hplp, hplpm⟩ := exists_getLast_of_ne_nil _ (hne _ hcim)
  obtain ⟨nfp, hnfp, hnfpm⟩ := exists_head_of_ne_nil _ (hne _ hcip)
  obtain ⟨f1, hf1⟩ := hget cfp (hbound _ hci _ hcfpm)
  obtain ⟨f2, hf2⟩ := hget clp (hbound _ hci _ hclpm)
  obtain ⟨f3, hf3⟩ := hget plp (hbound _ hcim _ hplpm)
  obtain ⟨f4, hf4⟩ := hget nfp (hbound _ hcip _ hnfpm)
  simp only [hcfp, Option.some_bind, hf1, hclp, hf2, hplp, hf3, hnfp, hf4]
  simp

/-- Under the partition invariant a full scan of the short-cluster pass never
panics. -/
theorem mergeScan_total (dist : α → α → Nat) (frames : List α)
    (min_len n : Nat) (hfr : frames.length = n) :
    ∀ cs i changed, Inv n cs →
      ∃ r, mergeScan dist frames min_len cs i changed = some r := by
  intro cs i changed
  induction cs, i, changed using mergeScan.induct dist frames min_len with
  | case1 cs i changed h hshort htgt =>
    intro hInv
    exact absurd htgt (mergeTarget_isSome dist frames cs i n hfr hInv h)
  | case2 cs i changed h hshort htgt ih =>
    intro hInv
    obtain ⟨r, hr⟩ := ih hInv
    exact ⟨r, by rw [mergeScan, dif_pos h, if_pos hshort, htgt]; exact hr⟩
  | case3 cs i changed h hshort t htgt tk cs2 ht ih =>
    intro hInv
    have htv : t = i - 1 ∧ 1 ≤ i := by
      rcases mergeTarget_spec dist frames cs i (some t) h htgt with
        ⟨hn, _⟩ | ⟨hs, hge⟩ | ⟨hs, _⟩
      · exact absurd hn (by simp)
      · exact ⟨by injection hs, hge⟩
      · injection hs with hs
        omega
    obtain ⟨rfl, hge⟩ := htv
    have heq2 : i - 1 + 1 = i := by omega
    have hprev := merge_prev_eq cs (i - 1) (cs.getD i []) (by omega)
    rw [heq2] at hprev
    have hdecomp := eq_take_getD_getD_drop cs [] (i - 1) (by omega)
    rw [heq2] at hdecomp
    have hInv2 : Inv n (cs2.set (i - 1) (cs2.getD (i - 1) [] ++ tk)) := by
      have hform : cs2.set (i - 1) (cs2.getD (i - 1) [] ++ tk)
          = cs.take (i - 1) ++ (cs.getD (i - 1) [] ++ cs.getD i [])
              :: cs.drop (i - 1 + 2) := hprev
      rw [hform]
      constructor
      · refine OrderInv_surgery _ _ _ _ _ (Or.inl rfl) ?_ ?_ ?_
        · exact hInv.1.1 _ (getD_mem cs [] (i - 1) (by omega))
        · exact hInv.1.1 _ (getD_mem cs [] i h)
        · rw [← hdecomp]; exact hInv.1
      · refine (flatten_surgery_perm _ _ _ _ _ (Or.inl rfl)).trans ?_
        rw [← hdecomp]; exact hInv.2
    obtain ⟨r, hr⟩ := ih hInv2
    refine ⟨r, ?_⟩
    rw [mergeScan, dif_pos h, if_pos hshort, htgt]
    simp only [if_pos ht]
    exact hr
  | case4 cs i changed h hshort t htgt tk cs2 ht ih =>
    intro hInv
    have htv : t = i + 1 ∧ i + 1 < cs.length := by
      rcases mergeTarget_spec dist frames cs i (some t) h htgt with
        ⟨hn, _⟩ | ⟨hs, hge⟩ | ⟨hs, hlt⟩
      · exact absurd hn (by simp)
      · injection hs with hs
        omega
      · exact ⟨by injection hs, hlt⟩
    obtain ⟨rfl, hlt⟩ := htv
    have hnext := merge_next_eq cs i (cs.getD i []) hlt
    have hdecomp := eq_take_getD_getD_drop cs [] i hlt
    have hInv2 : Inv n (cs2.set (i + 1 - 1) (cs2.getD (i + 1 - 1) [] ++ tk)) := by
      have hform : cs2.set (i + 1 - 1) (cs2.getD (i + 1 - 1) [] ++ tk)
          = cs.take i ++ (cs.getD (i + 1) [] ++ cs.getD i [])
              :: cs.drop (i + 2) := hnext
      rw [hform]
      constructor
      · refine OrderInv_surgery _ _ _ _ _ (Or.inr rfl) ?_ ?_ ?_
        · exact hInv.1.1 _ (getD_mem cs [] i h)
        · exact hInv.1.1 _ (getD_mem cs [] (i + 1) hlt)
        · rw [← hdecomp]; exact hInv.1
      · refine (flatten_surgery_perm _ _ _ _ _ (Or.inr rfl)).trans ?_
        rw [← hdecomp]; exact hInv.2
    obtain ⟨r, hr⟩ := ih hInv2
    refine ⟨r, ?_⟩
    rw [mergeScan, dif_pos h, if_pos hshort, htgt]
    simp only [if_neg ht]
    exact hr
  | case5 cs i changed h hshort ih =>
    intro hInv
    obtain ⟨r, hr⟩ := ih hInv
    exact ⟨r, by rw [mergeScan, dif_pos h, if_neg hshort]; exact hr⟩
  | case6 cs i changed h =>
    intro hInv
    exact ⟨(cs, changed), by rw [mergeScan, dif_neg h]⟩

/-- A member of a list is read back by `getD` at some index in range. -/
theorem getD_of_mem {β : Type*} (l : List β) (d : β) (c : β) (h : c ∈ l) :
    ∃ j, j < l.length ∧ l.getD j d = c := by
  induction l with
  | nil => cases h
  | cons a l ih =>
    rcases List.mem_cons.1 h with rfl | hm
    · exact ⟨0, by simp, rfl⟩
    · obtain ⟨j, hj, he⟩ := ih hm
      exact ⟨j + 1, by simpa using hj, by simpa using he⟩

/-- The fixed-point loop preserves the flattened partition up to permutation,
the order invariant, and non-emptiness, and never grows the cluster count. -/
theorem mergePass1_preserves (dist : α → α → Nat) (frames : List α)
    (min_len : Nat) :
    ∀ cs out, mergePass1 dist frames min_len cs = some out →
      out.flatten.Perm cs.flatten ∧ (OrderInv cs → OrderInv out) ∧
      (cs ≠ [] → out ≠ []) ∧ out.length ≤ cs.length := by
  intro cs
  induction cs using mergePass1.induct dist frames min_len with
  | case1 x hnone =>
    intro out heq
    rw [mergePass1_none dist frames min_len x hnone] at heq
    cases heq
  | case2 x r hsome htrue ih =>
    intro out heq
    rw [mergePass1_eq dist frames min_len x r.1 r.2 (by rw [hsome]), htrue,
      if_pos rfl] at heq
    obtain ⟨hp, ho, hne, hlen⟩ := ih out heq
    obtain ⟨hp2, ho2, hne2⟩ :=
      mergeScan_preserves dist frames min_len x 0 false r.1 r.2 (by rw [hsome])
    obtain ⟨hl2, _⟩ :=
      mergeScan_length dist frames min_len x 0 false r.1 r.2 (by rw [hsome])
    refine ⟨hp.trans hp2, fun hOrd => ho (ho2 hOrd), fun hx => hne (hne2 hx), ?_⟩
    omega
  | case3 x r hsome hfalse =>
    intro out heq
    rw [mergePass1_eq dist frames min_len x r.1 r.2 (by rw [hsome])] at heq
    rw [show r.2 = false by revert hfalse; cases r.2 <;> simp] at heq
    rw [if_neg (by simp)] at heq
    cases heq
    obtain ⟨hp2, ho2, hne2⟩ :=
      mergeScan_preserves dist frames min_len x 0 false r.1 r.2 (by rw [hsome])
    obtain ⟨hl2, _⟩ :=
      mergeScan_length dist frames min_len x 0 false r.1 r.2 (by rw [hsome])
    exact ⟨hp2, ho2, hne2, hl2⟩

/-- Under the partition invariant the fixed-point loop terminates with a
result and the result satisfies the invariant. -/
theorem mergePass1_total (dist : α → α → Nat) (frames : List α)
    (min_len n : Nat) (hfr : frames.length = n) :
    ∀ cs, Inv n cs →
      ∃ out, mergePass1 dist frames min_len cs = some out ∧ Inv n out := by
  intro cs
  induction cs using mergePass1.induct dist frames min_len with
  | case1 x hnone =>
    intro hInv
    obtain ⟨r, hr⟩ := mergeScan_total dist frames min_len n hfr x 0 false hInv
    rw [hnone] at hr
    cases hr
  | case2 x r hsome htrue ih =>
    intro hInv
    obtain ⟨hp2, ho2, _⟩ :=
      mergeScan_preserves dist frames min_len x 0 false r.1 r.2 (by rw [hsome])
    have hInv2 : Inv n r.1 := ⟨ho2 hInv.1, hp2.trans hInv.2⟩
    obtain ⟨out, ho, hi2⟩ := ih hInv2
    refine ⟨out, ?_, hi2⟩
    rw [mergePass1_eq dist frames min_len x r.1 r.2 (by rw [hsome]), htrue,
      if_pos rfl]
    exact ho
  | case3 x r hsome hfalse =>
    intro hInv
    obtain ⟨hp2, ho2, _⟩ :=
      mergeScan_preserves dist frames min_len x 0 false r.1 r.2 (by rw [hsome])
    refine ⟨r.1, ?_, ho2 hInv.1, hp2.trans hInv.2⟩
    rw [mergePass1_eq dist frames min_len x r.1 r.2 (by rw [hsome])]
    rw [show r.2 = false by revert hfalse; cases r.2 <;> simp]
    simp

/-- A scan that performs no merge leaves the partition unchanged, and every
cluster it visited is long enough unless the whole partition is a single
cluster. -/
theorem mergeScan_clean (dist : α → α → Nat) (frames : List α)
    (min_len : Nat) :
    ∀ cs i changed cs',
      mergeScan dist frames min_len cs i changed = some (cs', false) →
      changed = false ∧ cs' = cs ∧
      (∀ j, i ≤ j → j < cs.length →
        min_len ≤ (cs.getD j []).length ∨ cs.length = 1) := by
  intro cs i changed
  induction cs, i, changed using mergeScan.induct dist frames min_len with
  | case1 cs i changed h hshort htgt =>
    intro cs' heq
    rw [mergeScan, dif_pos h, if_pos hshort, htgt] at heq
    exact absurd heq (by simp)
  | case2 cs i changed h hshort htgt ih =>
    intro cs' heq
    rw [mergeScan, dif_pos h, if_pos hshort, htgt] at heq
    obtain ⟨hc, hcs, hall⟩ := ih cs' heq
    refine ⟨hc, hcs, fun j hij hjlen => ?_⟩
    rcases Nat.eq_or_lt_of_le hij with rfl | hlt
    · right
      rcases mergeTarget_spec dist frames cs i none h htgt with
        ⟨_, hlen1⟩ | ⟨hs, _⟩ | ⟨hs, _⟩
      · exact hlen1
      · cases hs
      · cases hs
    · exact hall j hlt hjlen
  | case3 cs i changed h hshort t htgt tk cs2 ht ih =>
    intro cs' heq
    rw [mergeScan, dif_pos h, if_pos hshort, htgt] at heq
    simp only [if_pos ht] at heq
    obtain ⟨hc, _, _⟩ := ih cs' heq
    cases hc
  | case4 cs i changed h hshort t htgt tk cs2 ht ih =>
    intro cs' heq
    rw [mergeScan, dif_pos h, if_pos hshort, htgt] at heq
    simp only [if_neg ht] at heq
    obtain ⟨hc, _, _⟩ := ih cs' heq
    cases hc
  | case5 cs i changed h hshort ih =>
    intro cs' heq
    rw [mergeScan, dif_pos h, if_neg hshort] at heq
    obtain ⟨hc, hcs, hall⟩ := ih cs' heq
    refine ⟨hc, hcs, fun j hij hjlen => ?_⟩
    rcases Nat.eq_or_lt_of_le hij with rfl | hlt
    · left
      omega
    · exact hall j hlt hjlen
  | case6 cs i changed h =>
    intro cs' heq
    rw [mergeScan, dif_neg h] at heq
    simp at heq
    obtain ⟨h1, h2⟩ := heq
    subst h1
    exact ⟨h2, rfl, fun j hij hjlen => absurd (lt_of_le_of_lt hij hjlen) h⟩

/-- After the fixed-point loop every cluster respects the minimum length,
unless the partition has collapsed to a single cluster. -/
theorem mergePass1_min_len (dist : α → α → Nat) (frames : List α)
    (min_len : Nat) :
    ∀ cs out, mergePass1 dist frames min_len cs = some out →
      out.length = 1 ∨ ∀ c ∈ out, min_len ≤ c.length := by
  intro cs
  induction cs using mergePass1.induct dist frames min_len with
  | case1 x hnone =>
    intro out heq
    rw [mergePass1_none dist frames min_len x hnone] at heq
    cases heq
  | case2 x r hsome htrue ih =>
    intro out heq
    rw [mergePass1_eq dist frames min_len x r.1 r.2 (by rw [hsome]), htrue,
      if_pos rfl] at heq
    exact ih out heq
  | case3 x r hsome hfalse =>
    intro out heq
    rw [mergePass1_eq dist frames min_len x r.1 r.2 (by rw [hsome])] at heq
    have hr2 : r.2 = false := by revert hfalse; cases r.2 <;> simp
    rw [hr2, if_neg (by simp)] at heq
    cases heq
    have hsome' : mergeScan dist frames min_len x 0 false = some (r.1, r.2) := by
      rw [hsome]
    rw [hr2] at hsome'
    obtain ⟨_, hx, hall⟩ :=
      mergeScan_clean dist frames min_len x 0 false r.1 hsome'
    rw [hx]
    by_cases hone : x.length = 1
    · exact Or.inl hone
    · refine Or.inr fun c hc => ?_
      obtain ⟨j, hj, hg⟩ := getD_of_mem x [] c hc
      rcases hall j (Nat.zero_le j) hj with hle | h1
      · rw [hg] at hle
        exact hle
      · exact absurd h1 hone

/-- With a trivial minimum length (at most one frame) a scan over non-empty
clusters performs no merge and returns the partition unchanged. -/
theorem mergeScan_no_short (dist : α → α → Nat) (frames : List α)
    (min_len : Nat) (cs : List (List Nat))
    (hne : ∀ c ∈ cs, c ≠ []) (hml : min_len ≤ 1) :
    ∀ i changed, mergeScan dist frames min_len cs i changed
      = some (cs, changed) := by
  have key : ∀ k i changed, cs.length - i ≤ k →
      mergeScan dist frames min_len cs i changed = some (cs, changed) := by
    intro k
    induction k with
    | zero =>
      intro i changed hk
      rw [mergeScan, dif_neg (by omega)]
    | succ m ih =>
      intro i changed hk
      by_cases h : i < cs.length
      · have hlen : ¬((cs.getD i []).length < min_len) := by
          have : cs.getD i [] ≠ [] := hne _ (getD_mem cs [] i h)
          have : 0 < (cs.getD i []).length := List.length_pos.2 this
          omega
        rw [mergeScan, dif_pos h, if_neg hlen]
        exact ih (i + 1) changed (by omega)
      · rw [mergeScan, dif_neg h]
  intro i changed
  exact key (cs.length - i) i changed le_rfl

/-- Reading before the end of the left part of an append. -/
theorem getD_append_lt {β : Type*} (A B : List β) (d : β) (j : Nat)
    (h : j < A.length) : (A ++ B).getD j d = A.getD j d := by
  induction A generalizing j with
  | nil => simp at h
  | cons a A ih =>
    cases j with
    | zero => simp
    | succ k => simpa using ih k (by simpa using h)

/-- Reading inside the taken part of a list. -/
theorem getD_take_lt {β : Type*} (l : List β) (d : β) (i j : Nat) (h : j < i) :
    (l.take i).getD j d = l.getD j d := by
  induction l generalizing i j with
  | nil => simp
  | cons a l ih =>
    cases i with
    | zero => omega
    | succ m =>
      cases j with
      | zero => simp
      | succ k => simpa using ih m k (by omega)

/-- Reading the element right after the left part of an append. -/
theorem getD_append_len {β : Type*} (A B : List β) (e d : β) :
    (A ++ e :: B).getD A.length d = e := by
  induction A with
  | nil => simp
  | cons a A ih => simpa using ih

/-- The micro-split pass preserves the flattened partition up to permutation,
the order invariant, non-emptiness, and any lower bound on cluster lengths
(it only concatenates clusters). -/
theorem microPass_preserves (dist : α → α → Nat) (frames : List α)
    (threshold : Nat) :
    ∀ cs i out, microPass dist frames threshold cs i = some out →
      out.flatten.Perm cs.flatten ∧ (OrderInv cs → OrderInv out) ∧
      (cs ≠ [] → out ≠ []) ∧
      (∀ m, (∀ c ∈ cs, m ≤ c.length) → ∀ c ∈ out, m ≤ c.length) := by
  intro cs i
  induction cs, i using microPass.induct dist frames threshold with
  | case1 cs i h hlast =>
    intro out heq
    rw [microPass, dif_pos h] at heq
    simp only [hlast] at heq
    exact absurd heq (by simp)
  | case2 cs i h ap hlast hfa =>
    intro out heq
    rw [microPass, dif_pos h] at heq
    simp only [hlast, hfa] at heq
    exact absurd heq (by simp)
  | case3 cs i h ap hlast a_last hfa hhead =>
    intro out heq
    rw [microPass, dif_pos h] at heq
    simp only [hlast, hfa, hhead] at heq
    exact absurd heq (by simp)
  | case4 cs i h ap hlast a_last hfa bp hhead hfb =>
    intro out heq
    rw [microPass, dif_pos h] at heq
    simp only [hlast, hfa, hhead, hfb] at heq
    exact absurd heq (by simp)
  | case5 cs i h ap hlast a_last hfa bp hhead b_first hfb hd ih =>
    intro out heq
    rw [microPass, dif_pos h] at heq
    simp only [hlast, hfa, hhead, hfb, if_pos hd] at heq
    have hprev := merge_prev_eq cs i (cs.getD (i + 1) []) h
    have hdecomp := eq_take_getD_getD_drop cs [] i h
    obtain ⟨hp, ho, hne, hm⟩ := ih out heq
    rw [hprev] at hp ho hne hm
    refine ⟨hp.trans ?_, fun hOrd => ho ?_, fun _ => hne (by simp), ?_⟩
    · conv_rhs => rw [hdecomp]
      exact flatten_surgery_perm _ _ _ _ _ (Or.inl rfl)
    · rw [hdecomp] at hOrd
      refine OrderInv_surgery _ _ _ _ _ (Or.inl rfl) ?_ ?_ hOrd
      · exact hOrd.1 _ (by rw [← hdecomp]; exact getD_mem cs [] i (by omega))
      · exact hOrd.1 _ (by rw [← hdecomp]; exact getD_mem cs [] (i + 1) h)
    · intro m hall
      refine hm m ?_
      intro c hc
      rcases List.mem_append.1 hc with hA | hc2
      · refine hall c ?_
        rw [hdecomp]
        exact List.mem_append_left _ hA
      rcases List.mem_cons.1 hc2 with rfl | hB
      · have h1 : m ≤ (cs.getD i []).length :=
          hall _ (getD_mem cs [] i (by omega))
        rw [List.length_append]
        omega
      · refine hall c ?_
        rw [hdecomp]
        exact List.mem_append_right _
          (List.mem_cons_of_mem _ (List.mem_cons_of_mem _ hB))
  | case6 cs i h ap hlast a_last hfa bp hhead b_first hfb hd ih =>
    intro out heq
    rw [microPass, dif_pos h] at heq
    simp only [hlast, hfa, hhead, hfb, if_neg hd] at heq
    exact ih out heq
  | case7 cs i h =>
    intro out heq
    rw [microPass, dif_neg h] at heq
    cases heq
    exact ⟨List.Perm.refl _, fun hOrd => hOrd, fun hne => hne, fun m hall => hall⟩

/-- Under the partition invariant the micro-split pass never panics, and its
result satisfies the invariant. -/
theorem microPass_total (dist : α → α → Nat) (frames : List α)
    (threshold n : Nat) (hfr : frames.length = n) :
    ∀ cs i, Inv n cs →
      ∃ out, microPass dist frames threshold cs i = some out := by
  intro cs i
  induction cs, i using microPass.induct dist frames threshold with
  | case1 cs i h hlast =>
    intro hInv
    exfalso
    have hci := getD_mem cs [] i (by omega)
    obtain ⟨a, ha, _⟩ := exists_getLast_of_ne_nil _ (hInv.1.1 _ hci)
    rw [hlast] at ha
    cases ha
  | case2 cs i h ap hlast hfa =>
    intro hInv
    exfalso
    have hci := getD_mem cs [] i (by omega)
    obtain ⟨a, ha, ham⟩ := exists_getLast_of_ne_nil _ (hInv.1.1 _ hci)
    rw [hlast] at ha
    injection ha with ha
    subst ha
    have hlt := pos_lt_of_Inv n cs hInv _ hci _ ham
    rw [← hfr] at hlt
    rw [List.get?_eq_get hlt] at hfa
    cases hfa
  | case3 cs i h ap hlast a_last hfa hhead =>
    intro hInv
    exfalso
    have hci := getD_mem cs [] (i + 1) h
    obtain ⟨a, ha, _⟩ := exists_head_of_ne_nil _ (hInv.1.1 _ hci)
    rw [hhead] at ha
    cases ha
  | case4 cs i h ap hlast a_last hfa bp hhead hfb =>
    intro hInv
    exfalso
    have hci := getD_mem cs [] (i + 1) h
    obtain ⟨a, ha, ham⟩ := exists_head_of_ne_nil _ (hInv.1.1 _ hci)
    rw [hhead] at ha
    injection ha with ha
    subst ha
    have hlt := pos_lt_of_Inv n cs hInv _ hci _ ham
    rw [← hfr] at hlt
    rw [List.get?_eq_get hlt] at hfb
    cases hfb
  | case5 cs i h ap hlast a_last hfa bp hhead b_first hfb hd ih =>
    intro hInv
    have hprev := merge_prev_eq cs i (cs.getD (i + 1) []) h
    have hdecomp := eq_take_getD_getD_drop cs [] i h
    have hInv2 : Inv n ((cs.eraseIdx (i + 1)).set i
        ((cs.eraseIdx (i + 1)).getD i [] ++ cs.getD (i + 1) [])) := by
      rw [hprev]
      constructor
      · refine OrderInv_surgery _ _ _ _ _ (Or.inl rfl) ?_ ?_ ?_
        · exact hInv.1.1 _ (getD_mem cs [] i (by omega))
        · exact hInv.1.1 _ (getD_mem cs [] (i + 1) h)
        · rw [← hdecomp]; exact hInv.1
      · refine (flatten_surgery_perm _ _ _ _ _ (Or.inl rfl)).trans ?_
        rw [← hdecomp]; exact hInv.2
    obtain ⟨out, ho⟩ := ih hInv2
    refine ⟨out, ?_⟩
    rw [microPass, dif_pos h]
    simp only [hlast, hfa, hhead, hfb, if_pos hd]
    exact ho
  | case6 cs i h ap hlast a_last hfa bp hhead b_first hfb hd ih =>
    intro hInv
    obtain ⟨out, ho⟩ := ih hInv
    refine ⟨out, ?_⟩
    rw [microPass, dif_pos h]
    simp only [hlast, hfa, hhead, hfb, if_neg hd]
    exact ho
  | case7 cs i h =>
    intro hInv
    exact ⟨cs, by rw [microPass, dif_neg h]⟩

/-- Two adjacent clusters are separated when the distance between the last
frame of the first and the first frame of the second strictly exceeds half
the threshold: this is the negation of the micro-split merge test, with all
accesses well defined. -/
def BoundaryFar (dist : α → α → Nat) (frames : List α) (threshold : Nat)
    (a b : List Nat) : Prop :=
  ∃ ap bp fa fb, a.getLast? = some ap ∧ b.head? = some bp ∧
    frames.get? ap = some fa ∧ frames.get? bp = some fb ∧
    threshold / 2 < dist fa fb

/-- After a successful micro-split sweep starting at `i`, provided all
boundaries strictly before `i` were already separated, every adjacent pair of
the result is separated. -/
theorem microPass_boundaries (dist : α → α → Nat) (frames : List α)
    (threshold : Nat) :
    ∀ cs i out, microPass dist frames threshold cs i = some out →
      (∀ j, j + 1 < cs.length → j < i →
        BoundaryFar dist frames threshold (cs.getD j []) (cs.getD (j + 1) [])) →
      ∀ j, j + 1 < out.length →
        BoundaryFar dist frames threshold (out.getD j []) (out.getD (j + 1) []) := by
  intro cs i
  induction cs, i using microPass.induct dist frames threshold with
  | case1 cs i h hlast =>
    intro out heq
    rw [microPass, dif_pos h] at heq
    simp only [hlast] at heq
    exact absurd heq (by simp)
  | case2 cs i h ap hlast hfa =>
    intro out heq
    rw [microPass, dif_pos h] at heq
    simp only [hlast, hfa] at heq
    exact absurd heq (by simp)
  | case3 cs i h ap hlast a_last hfa hhead =>
    intro out heq
    rw [microPass, dif_pos h] at heq
    simp only [hlast, hfa, hhead] at heq
    exact absurd heq (by simp)
  | case4 cs i h ap hlast a_last hfa bp hhead hfb =>
    intro out heq
    rw [microPass, dif_pos h] at heq
    simp only [hlast, hfa, hhead, hfb] at heq
    exact absurd heq (by simp)
  | case5 cs i h ap hlast a_last hfa bp hhead b_first hfb hd ih =>
    intro out heq hfar
    rw [microPass, dif_pos h] at heq
    simp only [hlast, hfa, hhead, hfb, if_pos hd] at heq
    have hprev := merge_prev_eq cs i (cs.getD (i + 1) []) h
    refine ih out (by rw [← hprev] at *; exact heq) ?_
    rw [hprev]
    set M := cs.take i ++ (cs.getD i [] ++ cs.getD (i + 1) []) :: cs.drop (i + 2)
      with hM
    have hMlen : M.length = cs.length - 1 := by
      rw [hM]
      simp [List.length_take]
      omega
    have htklen : (cs.take i).length = i := by
      simp [List.length_take]
      omega
    intro j hj1 hji
    have hgj : M.getD j [] = cs.getD j [] := by
      rw [hM, getD_append_lt _ _ _ _ (by omega), getD_take_lt _ _ _ _ (by omega)]
    have hgi : M.getD i [] = cs.getD i [] ++ cs.getD (i + 1) [] := by
      rw [hM]
      have hlenrw := getD_append_len (cs.take i) (cs.drop (i + 2))
        (cs.getD i [] ++ cs.getD (i + 1) []) ([] : List Nat)
      rw [htklen] at hlenrw
      exact hlenrw
    by_cases hje : j + 1 = i
    · have hgj1 : M.getD (j + 1) [] = cs.getD i [] ++ cs.getD (i + 1) [] := by
        rw [hje]
        exact hgi
      rw [hgj, hgj1]
      obtain ⟨xp, yp, xf, yf, hx, hy, hxf, hyf, hfar2⟩ :=
        hfar j (by omega) (by omega)
      refine ⟨xp, yp, xf, yf, hx, ?_, hxf, hyf, hfar2⟩
      have hine : cs.getD i [] ≠ [] := by
        intro hnil
        rw [hje, hnil] at hy
        cases hy
      cases hcg : cs.getD i [] with
      | nil => cases hine hcg
      | cons w ws =>
        rw [hje, hcg] at hy
        simpa using hy
    · have hgj1 : M.getD (j + 1) [] = cs.getD (j + 1) [] := by
        rw [hM, getD_append_lt _ _ _ _ (by omega), getD_take_lt _ _ _ _ (by omega)]
      rw [hgj, hgj1]
      exact hfar j (by omega) (by omega)
  | case6 cs i h ap hlast a_last hfa bp hhead b_first hfb hd ih =>
    intro out heq hfar
    rw [microPass, dif_pos h] at heq
    simp only [hlast, hfa, hhead, hfb, if_neg hd] at heq
    refine ih out heq ?_
    intro j hj1 hji
    by_cases hje : j = i
    · subst hje
      exact ⟨ap, bp, a_last, b_first, hlast, hhead, hfa, hfb, by omega⟩
    · exact hfar j hj1 (by omega)
  | case7 cs i h =>
    intro out heq hfar
    rw [microPass, dif_neg h] at heq
    cases heq
    intro j hj1
    exact hfar j hj1 (by omega)

/-- A micro-split sweep over a partition whose adjacent boundaries are all
separated is the identity. -/
theorem microPass_far_noop (dist : α → α → Nat) (frames : List α)
    (threshold : Nat) (cs : List (List Nat))
    (hfar : ∀ j, j + 1 < cs.length →
      BoundaryFar dist frames threshold (cs.getD j []) (cs.getD (j + 1) [])) :
    ∀ i, microPass dist frames threshold cs i = some cs := by
  have key : ∀ k i, cs.length - i ≤ k →
      microPass dist frames threshold cs i = some cs := by
    intro k
    induction k with
    | zero =>
      intro i hk
      rw [microPass, dif_neg (by omega)]
    | succ m ih =>
      intro i hk
      by_cases h : i + 1 < cs.length
      · obtain ⟨ap, bp, fa, fb, hl, hh, hfa, hfb, hfar2⟩ := hfar i h
        rw [microPass, dif_pos h]
        simp only [hl, hh, hfa, hfb]
        rw [if_neg (by omega)]
        exact ih (i + 1) (by omega)
      · rw [microPass, dif_neg h]
  intro i
  exact key (cs.length - i) i le_rfl

/-- The clustering loop distributes every incoming index, in order, over the
produced clusters: its concatenation is the open cluster followed by the
indices of the remaining frames. -/
theorem clusterGo_flatten (dist : α → α → Nat) (threshold : Nat) :
    ∀ (l : List (Nat × α)) (anchor : α) (cur : List Nat),
      (clusterGo dist threshold anchor cur l).flatten = cur ++ l.map Prod.fst := by
  intro l
  induction l with
  | nil =>
    intro anchor cur
    simp [clusterGo]
  | cons p rest ih =>
    intro anchor cur
    obtain ⟨i, hsh⟩ := p
    rw [clusterGo]
    by_cases hd : dist hsh anchor ≤ threshold
    · rw [if_pos hd, ih]
      simp
    · rw [if_neg hd]
      simp [ih]

/-- Every cluster produced by the clustering loop is non-empty, provided the
open cluster is. -/
theorem clusterGo_ne_nil (dist : α → α → Nat) (threshold : Nat) :
    ∀ (l : List (Nat × α)) (anchor : α) (cur : List Nat), cur ≠ [] →
      ∀ c ∈ clusterGo dist threshold anchor cur l, c ≠ [] := by
  intro l
  induction l with
  | nil =>
    intro anchor cur hcur c hc
    simp [clusterGo] at hc
    subst hc
    exact hcur
  | cons p rest ih =>
    intro anchor cur hcur c hc
    obtain ⟨i, hsh⟩ := p
    rw [clusterGo] at hc
    by_cases hd : dist hsh anchor ≤ threshold
    · rw [if_pos hd] at hc
      exact ih _ _ (by simp) c hc
    · rw [if_neg hd] at hc
      rcases List.mem_cons.1 hc with rfl | hc2
      · exact hcur
      · exact ih _ _ (by simp) c hc2

/-- The anchor clusterer partitions exactly the index range of the input:
the concatenation of its clusters is `[0, 1, …, n-1]` in order. -/
theorem cluster_frames_flatten (dist : α → α → Nat) (frames : List α)
    (threshold : Nat) :
    (cluster_frames dist frames threshold).flatten
      = List.range frames.length := by
  cases frames with
  | nil => simp [cluster_frames]
  | cons f fs =>
    rw [cluster_frames, clusterGo_flatten, List.enumFrom_map_fst,
      List.length_cons, List.range_eq_range']
    rfl

/-- Every cluster of the anchor clusterer output is non-empty. -/
theorem cluster_frames_ne_nil (dist : α → α → Nat) (frames : List α)
    (threshold : Nat) :
    ∀ c ∈ cluster_frames dist frames threshold, c ≠ [] := by
  cases frames with
  | nil => simp [cluster_frames]
  | cons f fs =>
    rw [cluster_frames]
    exact clusterGo_ne_nil dist threshold _ f [0] (by simp)

/-- The minimum of a non-empty cluster is one of its members. -/
theorem clusterMin_mem : ∀ (c : List Nat), c ≠ [] → clusterMin c ∈ c := by
  intro c
  induction c with
  | nil => intro hc; cases hc rfl
  | cons x r ih =>
    intro _
    cases r with
    | nil => simp [clusterMin]
    | cons y r' =>
      have hm := ih (by simp)
      show min x (clusterMin (y :: r')) ∈ x :: y :: r'
      rcases Nat.le_total x (clusterMin (y :: r')) with hle | hle
      · rw [min_eq_left hle]
        simp
      · rw [min_eq_right hle]
        exact List.mem_cons_of_mem x hm

/-- The minimum of a cluster bounds every member from below. -/
theorem clusterMin_le : ∀ (c : List Nat), ∀ x ∈ c, clusterMin c ≤ x := by
  intro c
  induction c with
  | nil => simp
  | cons a r ih =>
    intro x hx
    cases r with
    | nil =>
      simp at hx
      subst hx
      simp [clusterMin]
    | cons y r' =>
      show min a (clusterMin (y :: r')) ≤ x
      rcases List.mem_cons.1 hx with rfl | hx2
      · omega
      · have := ih x hx2
        omega

/-- The minimum of a strictly ascending cluster is its head. -/
theorem clusterMin_eq_head (c : List Nat) (x : Nat)
    (hs : List.Chain' (· < ·) c) (hh : c.head? = some x) :
    clusterMin c = x := by
  cases c with
  | nil => cases hh
  | cons a r =>
    injection hh with hh
    subst hh
    cases r with
    | nil => rfl
    | cons y r' =>
      have hpw := (List.chain'_iff_pairwise).1 hs
      have hmem := clusterMin_mem (y :: r') (by simp)
      have hlt : a < clusterMin (y :: r') :=
        (List.pairwise_cons.1 hpw).1 _ hmem
      show min a (clusterMin (y :: r')) = a
      omega

/-- A partition of non-empty clusters whose concatenation is strictly
ascending has strictly ascending clusters and strictly ascending minima. -/
theorem sorted_partition (cs : List (List Nat))
    (hflat : List.Chain' (· < ·) cs.flatten) (hne : ∀ c ∈ cs, c ≠ []) :
    (∀ c ∈ cs, List.Chain' (· < ·) c) ∧
      List.Chain' (· < ·) (cs.map clusterMin) := by
  induction cs with
  | nil => simp
  | cons c rest ih =>
    rw [List.flatten_cons, List.chain'_append] at hflat
    obtain ⟨hc, hrest, hlink⟩ := hflat
    obtain ⟨ha, hb⟩ := ih hrest (fun d hd => hne d (List.mem_cons_of_mem c hd))
    refine ⟨?_, ?_⟩
    · intro d hd
      rcases List.mem_cons.1 hd with rfl | hd2
      · exact hc
      · exact ha d hd2
    · rw [List.map_cons, List.chain'_cons']
      refine ⟨?_, hb⟩
      intro y hy
      cases rest with
      | nil => simp at hy
      | cons c' rest' =>
        simp only [List.map_cons, List.head?_cons, Option.mem_def,
          Option.some.injEq] at hy
        subst hy
        have hc'ne : c' ≠ [] := hne c' (by simp)
        have hcne : c ≠ [] := hne c (by simp)
        obtain ⟨hd', hhd', _⟩ := exists_head_of_ne_nil c' hc'ne
        obtain ⟨lst, hlst, hlstm⟩ := exists_getLast_of_ne_nil c hcne
        have hflhead : (c' :: rest').flatten.head? = some hd' := by
          rw [List.flatten_cons]
          cases hck : c' with
          | nil => cases hc'ne hck
          | cons w ws =>
            rw [hck] at hhd'
            injection hhd' with hhd'
            subst hhd'
            rfl
        have hlink2 : lst < hd' := hlink lst (by rw [hlst]; rfl) hd'
          (by rw [hflhead]; rfl)
        have h1 : clusterMin c ≤ lst := clusterMin_le c lst hlstm
        have h2 : clusterMin c' = hd' :=
          clusterMin_eq_head c' hd' (ha c' (by simp)) hhd'
        omega

/-- The anchor clusterer establishes the full partition invariant. -/
theorem cluster_frames_Inv (dist : α → α → Nat) (frames : List α)
    (threshold : Nat) :
    Inv frames.length (cluster_frames dist frames threshold) := by
  have hflat := cluster_frames_flatten dist frames threshold
  have hne := cluster_frames_ne_nil dist frames threshold
  have hchain : List.Chain' (· < ·)
      (cluster_frames dist frames threshold).flatten := by
    rw [hflat]
    exact (List.chain'_iff_pairwise).2 (List.pairwise_lt_range _)
  refine ⟨⟨hne, (sorted_partition _ hchain hne).2⟩, ?_⟩
  rw [hflat]

/-- Each cluster of the anchor clusterer output lists positions in strictly
increasing order. -/
theorem cluster_frames_sorted (dist : α → α → Nat) (frames : List α)
    (threshold : Nat) :
    ∀ c ∈ cluster_frames dist frames threshold, List.Chain' (· < ·) c := by
  have hflat := cluster_frames_flatten dist frames threshold
  have hne := cluster_frames_ne_nil dist frames threshold
  have hchain : List.Chain' (· < ·)
      (cluster_frames dist frames threshold).flatten := by
    rw [hflat]
    exact (List.chain'_iff_pairwise).2 (List.pairwise_lt_range _)
  exact (sorted_partition _ hchain hne).1

/-- The clustering loop agrees with the specification's indexed left fold:
running the loop over the frames after index `k`, with accumulator `acc`,
open cluster `cur` and anchor index `a`, produces the fold of `specStep`. -/
theorem clusterGo_spec_rel (dist : α → α → Nat) (threshold : Nat)
    (frames : List α) :
    ∀ (fs : List α) (k a : Nat) (av : α) (cur : List Nat)
      (acc : List (List Nat)),
      frames.drop k = fs → frames.get? a = some av →
      acc ++ clusterGo dist threshold av cur (List.enumFrom k fs)
        = ((List.range' k fs.length).foldl
              (specStep dist frames threshold) (a, cur, acc)).2.2
          ++ [((List.range' k fs.length).foldl
              (specStep dist frames threshold) (a, cur, acc)).2.1] := by
  intro fs
  induction fs with
  | nil =>
    intro k a av cur acc hdrop hget
    simp [clusterGo]
  | cons f fs' ih =>
    intro k a av cur acc hdrop hget
    have hgetk : frames.get? k = some f := by
      have h0 : (frames.drop k).get? 0 = some f := by rw [hdrop]; rfl
      rw [List.get?_drop] at h0
      simpa using h0
    have hdrop' : frames.drop (k + 1) = fs' := by
      rw [← List.tail_drop, hdrop]
      rfl
    have henum : List.enumFrom k (f :: fs') = (k, f) :: List.enumFrom (k + 1) fs' :=
      rfl
    have hrange : List.range' k (f :: fs').length
        = k :: List.range' (k + 1) fs'.length := rfl
    rw [henum, hrange, clusterGo, List.foldl_cons]
    have hstep : specStep dist frames threshold (a, cur, acc) k
        = if dist f av ≤ threshold then (a, cur ++ [k], acc)
          else (k, [k], acc ++ [cur]) := by
      rw [specStep, hgetk, hget]
    by_cases hd : dist f av ≤ threshold
    · rw [if_pos hd, hstep, if_pos hd]
      exact ih (k + 1) a av (cur ++ [k]) acc hdrop' hget
    · rw [if_neg hd, hstep, if_neg hd]
      have hl : acc ++ cur :: clusterGo dist threshold f [k]
            (List.enumFrom (k + 1) fs')
          = (acc ++ [cur]) ++ clusterGo dist threshold f [k]
            (List.enumFrom (k + 1) fs') := by
        simp
      rw [hl]
      exact ih (k + 1) k f [k] (acc ++ [cur]) hdrop' hgetk

/-- Panic propagation of `merge_short_clusters` from its first pass. -/
theorem merge_short_clusters_eq_none (dist : α → α → Nat)
    (cs : List (List Nat)) (frames : List α) (s fps : ℚ) (threshold : Nat)
    (h : mergePass1 dist frames (⌈s * fps⌉).toNat cs = none) :
    merge_short_clusters dist cs frames s fps threshold = none := by
  rw [merge_short_clusters]
  simp only [h]

/-- Unfolding of `merge_short_clusters` when the first pass succeeds. -/
theorem merge_short_clusters_eq (dist : α → α → Nat)
    (cs cs1 : List (List Nat)) (frames : List α) (s fps : ℚ) (threshold : Nat)
    (h : mergePass1 dist frames (⌈s * fps⌉).toNat cs = some cs1) :
    merge_short_clusters dist cs frames s fps threshold
      = microPass dist frames threshold cs1 0 := by
  rw [merge_short_clusters]
  simp only [h]

/-- A partition with at most one cluster is untouched by the micro-split
pass. -/
theorem microPass_single (dist : α → α → Nat) (frames : List α)
    (threshold : Nat) (cs : List (List Nat)) (i : Nat)
    (h : cs.length ≤ 1) : microPass dist frames threshold cs i = some cs := by
  rw [microPass, dif_neg (by omega)]

/-- Representative selection in closed form: one representative per
non-empty cluster, in cluster order, taken at index `length / 2`. -/
theorem write_output_slides_eq (cs : List (List Nat)) :
    write_output_slides cs
      = (cs.filter fun c => !c.isEmpty).map fun c => c.getD (c.length / 2) 0 := by
  induction cs with
  | nil => rfl
  | cons c rest ih =>
    rw [write_output_slides] at ih ⊢
    cases c with
    | nil => simpa using ih
    | cons x cr => simpa using ih

/-- The embedded clusterer coincides with the specification's indexed
formulation. -/
theorem cluster_frames_eq_spec (dist : α → α → Nat) (frames : List α)
    (threshold : Nat) :
    cluster_frames dist frames threshold
      = cluster_frames_spec dist frames threshold := by
  cases frames with
  | nil => rfl
  | cons f fs =>
    rw [cluster_frames, cluster_frames_spec, if_neg (by simp)]
    have hrel := clusterGo_spec_rel dist threshold (f :: fs) fs 1 0 f [0] []
      (by rfl) (by rfl)
    simp only [List.nil_append] at hrel
    rw [hrel]
    rfl

/-- Concrete clustering of the demonstration run: three 64-bit hashes
`0, 1023, 1023` under threshold 5 split after the first frame. -/
theorem eval_cluster_demo :
    cluster_frames hashDist [0, 1023, 1023] 5 = [[0], [1, 2]] := by decide

/-- First scan of the demonstration run: the short first cluster `[0]` is
folded into its next neighbour by appending, giving `[1, 2, 0]`. -/
theorem eval_scan_demo1 :
    mergeScan hashDist [0, 1023, 1023] 2 [[0], [1, 2]] 0 false
      = some ([[1, 2, 0]], true) := by
  have hd : hashDist 1023 0 = 10 := by decide
  simp [mergeScan, mergeTarget, hd]

/-- Second scan of the demonstration run: a fixed point is reached. -/
theorem eval_scan_demo2 :
    mergeScan hashDist [0, 1023, 1023] 2 [[1, 2, 0]] 0 false
      = some ([[1, 2, 0]], false) := by
  simp [mergeScan, mergeTarget]

/-- Short-cluster pass of the demonstration run. -/
theorem eval_pass1_demo :
    mergePass1 hashDist [0, 1023, 1023] 2 [[0], [1, 2]] = some [[1, 2, 0]] := by
  rw [mergePass1_eq _ _ _ _ _ _ eval_scan_demo1, if_pos rfl,
    mergePass1_eq _ _ _ _ _ _ eval_scan_demo2, if_neg (by simp)]

/-- Micro-split pass of the demonstration run: a single cluster is left
unchanged. -/
theorem eval_micro_demo :
    microPass hashDist [0, 1023, 1023] 5 [[1, 2, 0]] 0 = some [[1, 2, 0]] := by
  simp [microPass]

/-- Minimum length of the demonstration run:
`ceil(1.0 * 2.0) = 2` frames. -/
theorem eval_ceil_demo : (⌈(1 : ℚ) * 2⌉).toNat = 2 := by
  rw [show ⌈(1 : ℚ) * 2⌉ = 2 by norm_num]
  rfl

/-- Full `merge_short_clusters` of the demonstration run. -/
theorem eval_pipeline_demo :
    merge_short_clusters hashDist [[0], [1, 2]] [0, 1023, 1023] 1 2 5
      = some [[1, 2, 0]] := by
  have h1 : mergePass1 hashDist [0, 1023, 1023] ((⌈(1 : ℚ) * 2⌉).toNat)
      [[0], [1, 2]] = some [[1, 2, 0]] := by
    rw [eval_ceil_demo]
    exact eval_pass1_demo
  rw [merge_short_clusters_eq _ _ _ _ _ _ _ h1]
  exact eval_micro_demo

/-- C1 counterexample: on the three frames with hashes `0, 1023, 1023`,
threshold 5 and `min_len = 2` (1 second at 2 fps), the pipeline merges the
short first cluster `[0]` into its next neighbour by appending, so the final
partition after the micro-split pass is `[[1, 2, 0]]`, whose single cluster
is not strictly increasing — refuting the claim that positions within every
cluster are strictly increasing at every stage. -/
theorem C1_counterexample :
    cluster_frames hashDist [0, 1023, 1023] 5 = [[0], [1, 2]] ∧
    merge_short_clusters hashDist [[0], [1, 2]] [0, 1023, 1023] 1 2 5
      = some [[1, 2, 0]] ∧
    ¬ List.Chain' (· < ·) ([1, 2, 0] : List Nat) :=
  ⟨eval_cluster_demo, eval_pipeline_demo, by simp [List.chain'_cons]⟩

/-- C1 (amended): clusters are sorted strictly ascending by their minimum
element at every stage — in the output of `cluster_frames`, after the
short-cluster elimination loop, and after the micro-split pass (the merge
stages assuming the order invariant of their input, which `cluster_frames`
establishes); positions within every cluster are strictly increasing in the
output of `cluster_frames`, but not in general after the merge passes, since
a merge into the next neighbour appends the short cluster's positions after
the target's. -/
theorem C1_order_preservation (dist : α → α → Nat) (frames : List α)
    (threshold min_len : Nat) (cs out1 out2 : List (List Nat)) :
    ((∀ c ∈ cluster_frames dist frames threshold, List.Chain' (· < ·) c) ∧
      List.Chain' (· < ·)
        ((cluster_frames dist frames threshold).map clusterMin)) ∧
    (OrderInv cs → mergePass1 dist frames min_len cs = some out1 →
      List.Chain' (· < ·) (out1.map clusterMin)) ∧
    (OrderInv cs → microPass dist frames threshold cs 0 = some out2 →
      List.Chain' (· < ·) (out2.map clusterMin)) := by
  refine ⟨⟨cluster_frames_sorted dist frames threshold,
    (cluster_frames_Inv dist frames threshold).1.2⟩, ?_, ?_⟩
  · intro ho h1
    exact ((mergePass1_preserves dist frames min_len cs out1 h1).2.1 ho).2
  · intro ho h2
    exact ((microPass_preserves dist frames threshold cs 0 out2 h2).2.1 ho).2

/-- Witness for C1: on the demonstration run, the merged partition
`[[1, 2, 0]]` still has strictly ascending cluster minima. -/
theorem C1_order_preservation_witness :
    OrderInv [[0], [1, 2]] ∧
    List.Chain' (· < ·) (([[1, 2, 0]] : List (List Nat)).map clusterMin) :=
  ⟨⟨by decide, by simp [clusterMin, List.chain'_cons]⟩,
    (C1_order_preservation hashDist [0, 1023, 1023] 5 2 [[0], [1, 2]]
      [[1, 2, 0]] [[1, 2, 0]]).2.1
      ⟨by decide, by simp [clusterMin, List.chain'_cons]⟩ eval_pass1_demo⟩

/-- C2 counterexample: merging the short first cluster `[0]` into its next
neighbour `[1, 2]` produces `[1, 2, 0]` — the short cluster's positions are
appended after the target's — and not the temporally ordered `[0, 1, 2]`
that the claim's "placed before the target's positions" predicts. -/
theorem C2_counterexample :
    mergePass1 hashDist [0, 1023, 1023] 2 [[0], [1, 2]] = some [[1, 2, 0]] ∧
    ([[1, 2, 0]] : List (List Nat)) ≠ [[0, 1, 2]] :=
  ⟨eval_pass1_demo, by decide⟩

/-- C2 (amended): in the short-cluster elimination loop, a cluster shorter
than `min_len` at index `i` of a partition with more than one cluster is
merged as follows: if `i` is the first cluster the target is the next
cluster; if `i` is the last cluster the target is the previous cluster;
otherwise, with `d_prev = dist(first frame of cluster i, last frame of
cluster i-1)` and `d_next = dist(last frame of cluster i, first frame of
cluster i+1)`, the target is the previous neighbour exactly when
`d_prev ≤ d_next` and the next neighbour otherwise; the short cluster's
position list is appended after the target's positions in both cases (for a
next-cluster target this breaks temporal order), the short cluster is
removed, and scanning continues at the merged cluster; when the partition
has exactly one cluster no merge occurs. -/
theorem C2_short_cluster_merge_rule (dist : α → α → Nat) (frames : List α)
    (min_len : Nat) (cs : List (List Nat)) (i : Nat) (changed : Bool)
    (hi : i < cs.length) (hshort : (cs.getD i []).length < min_len) :
    (cs.length = 1 →
      mergeScan dist frames min_len cs i changed = some (cs, changed)) ∧
    (i = 0 → 1 < cs.length →
      mergeScan dist frames min_len cs 0 changed
        = mergeScan dist frames min_len
            ((cs.getD 1 [] ++ cs.getD 0 []) :: cs.drop 2) 0 true) ∧
    (i = cs.length - 1 → 1 ≤ i →
      mergeScan dist frames min_len cs i changed
        = mergeScan dist frames min_len
            (cs.take (i - 1) ++ (cs.getD (i - 1) [] ++ cs.getD i [])
              :: cs.drop (i + 1)) (i - 1) true) ∧
    (∀ cfp clp plp nfp cf cl pl nf,
      1 ≤ i → i + 1 < cs.length →
      (cs.getD i []).head? = some cfp → frames.get? cfp = some cf →
      (cs.getD i []).getLast? = some clp → frames.get? clp = some cl →
      (cs.getD (i - 1) []).getLast? = some plp → frames.get? plp = some pl →
      (cs.getD (i + 1) []).head? = some nfp → frames.get? nfp = some nf →
      (dist cf pl ≤ dist cl nf →
        mergeScan dist frames min_len cs i changed
          = mergeScan dist frames min_len
              (cs.take (i - 1) ++ (cs.getD (i - 1) [] ++ cs.getD i [])
                :: cs.drop (i + 1)) (i - 1) true) ∧
      (dist cl nf < dist cf pl →
        mergeScan dist frames min_len cs i changed
          = mergeScan dist frames min_len
              (cs.take i ++ (cs.getD (i + 1) [] ++ cs.getD i [])
                :: cs.drop (i + 2)) i true)) := by
  refine ⟨?_, ?_, ?_, ?_⟩
  · intro h1
    have hi0 : i = 0 := by omega
    subst hi0
    have htgt : mergeTarget dist frames cs 0 = some none := by
      rw [mergeTarget, if_pos h1]
    rw [mergeScan, dif_pos hi, if_pos hshort, htgt]
    rw [mergeScan, dif_neg (by omega)]
  · intro hi0 hlen2
    subst hi0
    have htgt : mergeTarget dist frames cs 0 = some (some 1) := by
      rw [mergeTarget, if_neg (by omega), if_pos rfl]
    rw [mergeScan, dif_pos hi, if_pos hshort, htgt]
    simp only [if_neg (show ¬(1 : Nat) < 0 by omega), Nat.sub_self]
    rw [merge_next_eq cs 0 (cs.getD 0 []) hlen2]
    simp only [List.take_zero, List.nil_append]
  · intro hlast h1i
    have htgt : mergeTarget dist frames cs i = some (some (i - 1)) := by
      rw [mergeTarget, if_neg (by omega), if_neg (by omega), if_pos hlast]
    rw [mergeScan, dif_pos hi, if_pos hshort, htgt]
    simp only [if_pos (show i - 1 < i by omega)]
    have heq2 : i - 1 + 1 = i := by omega
    have hprev := merge_prev_eq cs (i - 1) (cs.getD i []) (by omega)
    rw [heq2] at hprev
    rw [hprev, show i - 1 + 2 = i + 1 by omega]
  · intro cfp clp plp nfp cf cl pl nf h1i hi1 hcfp hcf hclp hcl hplp hpl hnfp hnf
    have htgt : mergeTarget dist frames cs i
        = some (some (if dist cf pl ≤ dist cl nf then i - 1 else i + 1)) := by
      rw [mergeTarget, if_neg (by omega), if_neg (by omega), if_neg (by omega)]
      simp only [hcfp, Option.some_bind, hcf, hclp, hcl, hplp, hpl, hnfp, hnf]
    constructor
    · intro hd
      rw [if_pos hd] at htgt
      rw [mergeScan, dif_pos hi, if_pos hshort, htgt]
      simp only [if_pos (show i - 1 < i by omega)]
      have heq2 : i - 1 + 1 = i := by omega
      have hprev := merge_prev_eq cs (i - 1) (cs.getD i []) (by omega)
      rw [heq2] at hprev
      rw [hprev, show i - 1 + 2 = i + 1 by omega]
    · intro hd
      rw [if_neg (by omega)] at htgt
      rw [mergeScan, dif_pos hi, if_pos hshort, htgt]
      simp only [if_neg (show ¬(i + 1 < i) by omega), Nat.add_sub_cancel]
      rw [merge_next_eq cs i (cs.getD i []) hi1]

/-- Witness for C2: an interior short cluster `[2]` between `[0, 1]` and
`[3, 4]` with tied distances (`d_prev = d_next = 2`) merges into the
previous neighbour, appending after it, and scanning resumes at the merged
cluster. -/
theorem C2_short_cluster_merge_rule_witness :
    (([[0, 1], [2], [3, 4]] : List (List Nat)).getD 1 []).length < 2 ∧
    hashDist 3 0 ≤ hashDist 3 15 ∧
    mergeScan hashDist [0, 0, 3, 15, 15] 2 [[0, 1], [2], [3, 4]] 1 false
      = mergeScan hashDist [0, 0, 3, 15, 15] 2 [[0, 1, 2], [3, 4]] 0 true := by
  refine ⟨by decide, by decide, ?_⟩
  have h := (C2_short_cluster_merge_rule hashDist [0, 0, 3, 15, 15] 2
    [[0, 1], [2], [3, 4]] 1 false (by decide) (by decide)).2.2.2
      2 2 1 3 3 3 0 15 (by decide) (by decide) rfl rfl rfl rfl rfl rfl rfl rfl
  exact h.1 (by decide)

/-- C3: `cluster_frames` returns the empty partition on empty input and
otherwise the partition built by the specification's single forward pass —
the current cluster's anchor is its first element, each index `i = 1..n-1`
is appended exactly when `dist(fingerprint[i], fingerprint[anchor]) ≤
threshold` and otherwise starts a new cluster anchored at `i`, and the final
open cluster is emitted unconditionally (`cluster_frames_spec` is that pass,
written from the specification's words). -/
theorem C3_anchor_clustering (dist : α → α → Nat) (frames : List α)
    (threshold : Nat) :
    cluster_frames dist frames threshold
      = cluster_frames_spec dist frames threshold :=
  cluster_frames_eq_spec dist frames threshold

/-- C4: the multiset of positions is exactly `{0, …, n-1}` at every stage:
the anchor clusterer emits precisely `[0, …, n-1]` in order, each scan stage
of the merge passes permutes the flattened partition, and the full
`merge_short_clusters` output over the clusterer's partition remains a
permutation of `range n`. -/
theorem C4_partition_completeness (dist : α → α → Nat) (frames : List α)
    (threshold min_len : Nat) (s fps : ℚ)
    (cs out1 out2 mout : List (List Nat)) (i : Nat) :
    ((cluster_frames dist frames threshold).flatten
      = List.range frames.length) ∧
    (mergePass1 dist frames min_len cs = some out1 →
      out1.flatten.Perm cs.flatten) ∧
    (microPass dist frames threshold cs i = some out2 →
      out2.flatten.Perm cs.flatten) ∧
    (merge_short_clusters dist (cluster_frames dist frames threshold) frames
        s fps threshold = some mout →
      mout.flatten.Perm (List.range frames.length)) := by
  refine ⟨cluster_frames_flatten dist frames threshold,
    fun h => (mergePass1_preserves dist frames min_len cs out1 h).1,
    fun h => (microPass_preserves dist frames threshold cs i out2 h).1, ?_⟩
  intro h
  cases h1 : mergePass1 dist frames (⌈s * fps⌉).toNat
      (cluster_frames dist frames threshold) with
  | none =>
    rw [merge_short_clusters_eq_none _ _ _ _ _ _ h1] at h
    cases h
  | some cs1 =>
    rw [merge_short_clusters_eq _ _ _ _ _ _ _ h1] at h
    have p1 := (mergePass1_preserves _ _ _ _ _ h1).1
    have p2 := (microPass_preserves _ _ _ _ _ _ h).1
    have p3 := p2.trans p1
    rw [cluster_frames_flatten] at p3
    exact p3

/-- Witness for C4: the demonstration pipeline output `[[1, 2, 0]]` is a
permutation of `range 3`. -/
theorem C4_partition_completeness_witness :
    merge_short_clusters hashDist (cluster_frames hashDist [0, 1023, 1023] 5)
        [0, 1023, 1023] 1 2 5 = some [[1, 2, 0]] ∧
    ([[1, 2, 0]] : List (List Nat)).flatten.Perm (List.range 3) := by
  have heval : merge_short_clusters hashDist
      (cluster_frames hashDist [0, 1023, 1023] 5) [0, 1023, 1023] 1 2 5
      = some [[1, 2, 0]] := by
    rw [eval_cluster_demo]
    exact eval_pipeline_demo
  exact ⟨heval,
    (C4_partition_completeness hashDist [0, 1023, 1023] 5 2 1 2 [] [] [] [[1, 2, 0]] 0).2.2.2
      heval⟩

/-- C5: after `merge_short_clusters` with
`min_len = ceil(min_stable_seconds * fps)`, every cluster has length at
least `min_len` unless the partition consists of exactly one cluster; the
micro-split pass only concatenates clusters and cannot break the guarantee
established by the short-cluster elimination loop. -/
theorem C5_min_len_guarantee (dist : α → α → Nat) (frames : List α)
    (s fps : ℚ) (threshold : Nat) (cs out : List (List Nat))
    (h : merge_short_clusters dist cs frames s fps threshold = some out) :
    out.length = 1 ∨ ∀ c ∈ out, (⌈s * fps⌉).toNat ≤ c.length := by
  cases h1 : mergePass1 dist frames (⌈s * fps⌉).toNat cs with
  | none =>
    rw [merge_short_clusters_eq_none _ _ _ _ _ _ h1] at h
    cases h
  | some cs1 =>
    rw [merge_short_clusters_eq _ _ _ _ _ _ _ h1] at h
    rcases mergePass1_min_len _ _ _ _ _ h1 with hone | hall
    · left
      rw [microPass_single dist frames threshold cs1 0 (by omega)] at h
      cases h
      exact hone
    · right
      exact (microPass_preserves _ _ _ _ _ _ h).2.2.2 _ hall

/-- Witness for C5: the demonstration run collapses to exactly one
cluster. -/
theorem C5_min_len_guarantee_witness :
    merge_short_clusters hashDist [[0], [1, 2]] [0, 1023, 1023] 1 2 5
        = some [[1, 2, 0]] ∧
    (([[1, 2, 0]] : List (List Nat)).length = 1 ∨
      ∀ c ∈ ([[1, 2, 0]] : List (List Nat)), (⌈(1 : ℚ) * 2⌉).toNat ≤ c.length) :=
  ⟨eval_pipeline_demo,
    C5_min_len_guarantee hashDist [0, 1023, 1023] 1 2 5 [[0], [1, 2]]
      [[1, 2, 0]] eval_pipeline_demo⟩

/-- C6: the micro-split sweep is idempotent — applying it twice in
succession (monadically, since a sweep may panic on malformed input) yields
the same partition as applying it once, for every partition and frame
sequence. -/
theorem C6_micro_idempotent (dist : α → α → Nat) (frames : List α)
    (threshold : Nat) (cs : List (List Nat)) :
    (microPass dist frames threshold cs 0).bind
        (fun cs' => microPass dist frames threshold cs' 0)
      = microPass dist frames threshold cs 0 := by
  cases h : microPass dist frames threshold cs 0 with
  | none => rfl
  | some cs' =>
    rw [Option.some_bind]
    have hfar := microPass_boundaries dist frames threshold cs 0 cs' h
      (fun j _ hj0 => absurd hj0 (by omega))
    exact microPass_far_noop dist frames threshold cs' hfar 0

/-- C7: representative selection yields one representative per non-empty
cluster, in cluster order, each being the element at internal index
`length / 2` of its cluster; an empty cluster contributes no output and
causes no failure; empty input yields the empty partition and zero
representatives. -/
theorem C7_representative_selection (dist : α → α → Nat) (threshold : Nat)
    (cs : List (List Nat)) :
    (write_output_slides cs
      = (cs.filter fun c => !c.isEmpty).map fun c => c.getD (c.length / 2) 0) ∧
    write_output_slides [] = [] ∧
    cluster_frames dist ([] : List α) threshold = [] ∧
    write_output_slides (cluster_frames dist ([] : List α) threshold) = [] :=
  ⟨write_output_slides_eq cs, rfl, rfl, rfl⟩

/-- C8: given the validated preconditions (`threshold ≤ 64`, `fps > 0`,
`min_stable_seconds ≥ 0`) and any frame sequence, the whole core —
`cluster_frames` followed by `merge_short_clusters` — is total: every slice
index and every unwrap is in bounds, so the embedded computation never
returns `none`. -/
theorem C8_totality (dist : α → α → Nat) (frames : List α) (threshold : Nat)
    (s fps : ℚ) (ht : threshold ≤ 64) (hf : 0 < fps) (hs : 0 ≤ s) :
    ∃ out, merge_short_clusters dist (cluster_frames dist frames threshold)
        frames s fps threshold = some out := by
  have hInv := cluster_frames_Inv dist frames threshold
  obtain ⟨cs1, h1, hInv1⟩ := mergePass1_total dist frames (⌈s * fps⌉).toNat
    frames.length rfl _ hInv
  obtain ⟨out, h2⟩ := microPass_total dist frames threshold frames.length rfl
    cs1 0 hInv1
  exact ⟨out, by rw [merge_short_clusters_eq _ _ _ _ _ _ _ h1]; exact h2⟩

/-- Witness for C8 at the demonstration input. -/
theorem C8_totality_witness :
    (5 : Nat) ≤ 64 ∧ (0 : ℚ) < 2 ∧ (0 : ℚ) ≤ 1 ∧
    ∃ out, merge_short_clusters hashDist
        (cluster_frames hashDist [0, 1023, 1023] 5) [0, 1023, 1023] 1 2 5
      = some out :=
  ⟨by decide, by norm_num, by norm_num,
    C8_totality hashDist [0, 1023, 1023] 5 1 2 (by decide) (by norm_num)
      (by norm_num)⟩

/-- C9: termination of the fixed-point loop — one merge step removes exactly
one cluster, a scan that made a merge strictly reduces the cluster count, a
full scan with zero merges ends the loop with the partition unchanged, and
the loop's result never grows the partition and never empties a non-empty
one (worst case it collapses to a single cluster). -/
theorem C9_fixed_point_termination (dist : α → α → Nat) (frames : List α)
    (min_len : Nat) (cs cs' out : List (List Nat)) :
    (∀ i t x, i < cs.length →
      ((cs.eraseIdx i).set t x).length = cs.length - 1) ∧
    (mergeScan dist frames min_len cs 0 false = some (cs', true) →
      cs'.length < cs.length) ∧
    (mergeScan dist frames min_len cs 0 false = some (cs', false) →
      cs' = cs ∧ mergePass1 dist frames min_len cs = some cs) ∧
    (mergePass1 dist frames min_len cs = some out →
      out.length ≤ cs.length ∧ (cs ≠ [] → out ≠ [])) := by
  refine ⟨?_, ?_, ?_, ?_⟩
  · intro i t x hi
    simp [List.length_set, List.length_eraseIdx, hi]
  · intro h
    rcases mergeScan_length dist frames min_len cs 0 false cs' true h with
      ⟨h1, h2 | h3⟩
    · cases h2
    · exact h3
  · intro h
    obtain ⟨_, hcs, _⟩ := mergeScan_clean dist frames min_len cs 0 false cs' h
    subst hcs
    exact ⟨rfl, by rw [mergePass1_eq _ _ _ _ _ _ h]; simp⟩
  · intro h
    have hpres := mergePass1_preserves dist frames min_len cs out h
    exact ⟨hpres.2.2.2, hpres.2.2.1⟩

/-- Witness for C9: the demonstration scan merges once and shrinks the
partition from two clusters to one. -/
theorem C9_fixed_point_termination_witness :
    mergeScan hashDist [0, 1023, 1023] 2 [[0], [1, 2]] 0 false
        = some ([[1, 2, 0]], true) ∧
    ([[1, 2, 0]] : List (List Nat)).length
      < ([[0], [1, 2]] : List (List Nat)).length :=
  ⟨eval_scan_demo1,
    (C9_fixed_point_termination hashDist [0, 1023, 1023] 2 [[0], [1, 2]]
      [[1, 2, 0]] []).2.1 eval_scan_demo1⟩

/-- C10: whenever `ceil(min_stable_seconds * fps) ≤ 1`, the short-cluster
elimination loop performs no merge on a partition of non-empty clusters —
its fixed point is the input itself — so `merge_short_clusters` behaves
exactly as the micro-split pass alone. -/
theorem C10_trivial_min_len (dist : α → α → Nat) (frames : List α)
    (s fps : ℚ) (threshold : Nat) (cs : List (List Nat))
    (hne : ∀ c ∈ cs, c ≠ []) (hml : (⌈s * fps⌉).toNat ≤ 1) :
    mergePass1 dist frames (⌈s * fps⌉).toNat cs = some cs ∧
    merge_short_clusters dist cs frames s fps threshold
      = microPass dist frames threshold cs 0 := by
  have hscan := mergeScan_no_short dist frames (⌈s * fps⌉).toNat cs hne hml
    0 false
  have h1 : mergePass1 dist frames (⌈s * fps⌉).toNat cs = some cs := by
    rw [mergePass1_eq _ _ _ _ _ _ hscan]
    simp
  exact ⟨h1, merge_short_clusters_eq _ _ _ _ _ _ _ h1⟩

/-- Witness for C10 with `min_stable_seconds = 0`. -/
theorem C10_trivial_min_len_witness :
    (∀ c ∈ ([[0]] : List (List Nat)), c ≠ []) ∧
    (⌈(0 : ℚ) * 1⌉).toNat ≤ 1 ∧
    mergePass1 hashDist [0] (⌈(0 : ℚ) * 1⌉).toNat [[0]] = some [[0]] := by
  have hml : (⌈(0 : ℚ) * 1⌉).toNat ≤ 1 := by
    rw [show ⌈(0 : ℚ) * 1⌉ = 0 by norm_num]
    decide
  exact ⟨by decide, hml,
    (C10_trivial_min_len hashDist [0] 0 1 0 [[0]] (by decide) hml).1⟩

end Slidesplit
